import Mathlib

/-!
Verification of the qai-trader core against its natural-language
specification.

This file shallowly embeds the relevant parts of the repository in Lean 4 and
proves (or refutes) the frozen claims about them.  Python floats are embedded
as exact rationals (`ℚ`); library primitives that live outside the repository
(`math.sqrt`, `hmac`/`hashlib` digests, `json.loads`) are threaded through as
explicit function parameters, so every theorem quantifies over the behaviour
of the external primitive while the repository's own logic is embedded
verbatim.

Embedded modules:
* `src/qai/backtester.py` — `BacktestResult.summarize`, `Backtester.run`
* `src/qai/adaptive_strategy.py` — `AdaptiveStrategy.on_trade_close`
* `src/qai/distributed_validator.py` — `RedundancyChecker.evaluate`,
  `DistributedValidator.consolidate_results`
* `src/qai/rl_continuous.py` — `RLContinuousAgent.train`
* `src/qai/optimizer.py` — `OptimizerRL.train_step`
* `src/qai/hmac_utils.py` — `verify_audit_stream`, `verify_audit_file`
* `src/qai/logging_utils.py` — `append_signed_audit`
* `scripts/recover_state.py` — `verify_audit_log`
-/

namespace QaiTrader

/-! ## Generic dictionary operations

Python `dict` is embedded as an association list in insertion order.
`getVal` is `d.get(k)`, `setItem` is `d[k] = v` (replace in place, else append
at the end, exactly the CPython insertion-order semantics), `setdefaultQ` is
`d.setdefault(k, v)` for rational-valued dicts. -/

def getVal {α : Type} : List (String × α) → String → Option α
  | [], _ => none
  | p :: rest, k => if p.1 = k then some p.2 else getVal rest k

def setItem {α : Type} : List (String × α) → String → α → List (String × α)
  | [], k, v => [(k, v)]
  | p :: rest, k, v => if p.1 = k then (k, v) :: rest else p :: setItem rest k v

/-! ## Backtester (`src/qai/backtester.py`) -/

/-- One price observation; `Backtester.run` requires at least the keys
`open` and `close`. -/
abbrev Bar := List (String × ℚ)

/-- Metrics map of a `BacktestResult` (`Dict[str, float]`). -/
abbrev Metrics := List (String × ℚ)

/-- `metrics.setdefault(k, v)`: insert only if the key is absent. -/
def setdefaultQ (m : Metrics) (k : String) (v : ℚ) : Metrics :=
  if (getVal m k).isSome then m else m ++ [(k, v)]

/-- Immutable trade record created at a close event
(`{index, direction, entry, exit, pnl}`). -/
structure Trade where
  index : Nat
  direction : Int
  entry : ℚ
  exit : ℚ
  pnl : ℚ

deriving DecidableEq

/-- Container for backtest outcomes (`BacktestResult`). -/
structure BacktestResult where
  trades : List Trade
  equity_curve : List ℚ
  metrics : Metrics

deriving DecidableEq

/-- Accumulator of the advanced-metrics loop in `summarize` (`peak`,
`max_drawdown`, `returns`, `prev` of the Python `for value in
equity_curve[1:]` loop). -/
structure ScanState where
  peak : ℚ
  maxdd : ℚ
  rets : List ℚ
  prev : ℚ

deriving DecidableEq

/-- One iteration of the advanced-metrics loop of `summarize`: append the
per-step return when `prev != 0`, update the running peak, then update the
most negative drawdown. -/
def scanStep (s : ScanState) (value : ℚ) : ScanState :=
  let rets := if s.prev ≠ 0 then s.rets ++ [value / s.prev - 1] else s.rets
  let peak := max s.peak value
  let maxdd :=
    if peak ≠ 0 then
      (if (value - peak) / peak < s.maxdd then (value - peak) / peak else s.maxdd)
    else s.maxdd
  ⟨peak, maxdd, rets, value⟩

/-- The `(key, value)` pairs that `summarize` feeds to `setdefault`, in source
order.  Every value is a pure function of `trades` and `equity_curve` only,
so the sequence of `setdefault` calls in the source is exactly a left fold of
`setdefaultQ` over this list.  `sq` models `math.sqrt`. -/
def metricPairs (sq : ℚ → ℚ) (trades : List Trade) (curve : List ℚ) :
    List (String × ℚ) :=
  let wins : ℚ := ((trades.filter (fun t => 0 < t.pnl)).length : ℚ)
  let losses : ℚ := ((trades.filter (fun t => t.pnl ≤ 0)).length : ℚ)
  let total : ℚ := if trades = [] then 1 else (trades.length : ℚ)
  [("total_trades", (trades.length : ℚ)), ("wins", wins), ("losses", losses),
    ("win_rate", wins / total)]
  ++ (match curve with
      | [] => []
      | c0 :: rest =>
        [("ending_equity", (c0 :: rest).getLast (by simp))])
  ++ (match curve with
      | [] => []
      | c0 :: rest =>
        let fin := rest.foldl scanStep ⟨c0, 0, [], c0⟩
        [("max_drawdown", |fin.maxdd|)]
        ++ (if fin.rets = [] then []
            else
              let mean := fin.rets.sum / (fin.rets.length : ℚ)
              let variance :=
                (fin.rets.map (fun r => (r - mean) ^ 2)).sum / (fin.rets.length : ℚ)
              let std := sq variance
              let sharpe := if 0 < std then mean / std * sq ((fin.rets.length : ℚ)) else 0
              [("sharpe_ratio", sharpe)]))
  ++ [("avg_trade_pnl",
        if trades = [] then 0
        else (trades.map Trade.pnl).sum / (trades.length : ℚ))]

/-- Fold a list of `(key, value)` pairs into a metrics map with `setdefault`. -/
def applySetdefaults (m : Metrics) : List (String × ℚ) → Metrics
  | [] => m
  | p :: rest => applySetdefaults (setdefaultQ m p.1 p.2) rest

/-- `BacktestResult.summarize` restricted to its effect on the metrics map:
every metric is inserted with `setdefault`, with values computed from
`trades` and `equity_curve` alone. -/
def summarizeMetrics (sq : ℚ → ℚ) (trades : List Trade) (curve : List ℚ)
    (m : Metrics) : Metrics :=
  applySetdefaults m (metricPairs sq trades curve)

/-- `BacktestResult.summarize`: mutates (here: replaces) the metrics map and
returns the result. -/
def summarize (sq : ℚ → ℚ) (r : BacktestResult) : BacktestResult :=
  { r with metrics := summarizeMetrics sq r.trades r.equity_curve r.metrics }

/-- Backtester configuration (`initial_capital`, `risk_per_trade`,
`slippage`). -/
structure Backtester where
  initial_capital : ℚ
  risk_per_trade : ℚ
  slippage : ℚ

/-- The constructor checks of `Backtester.__init__`. -/
def Backtester.validParams (b : Backtester) : Prop :=
  0 < b.initial_capital ∧ 0 < b.risk_per_trade ∧ b.risk_per_trade ≤ 1

/-- Mutable state of one `Backtester.run` loop iteration. -/
structure RunState where
  equity : ℚ
  position : Int
  entry_price : ℚ
  trades : List Trade
  curve : List ℚ

/-- Error message for a malformed bar (the source raises
`ValueError("Each price bar must contain open and close keys")`). -/
def missingKeyMsg : String := "bar missing open or close key"

/-- Error message for an out-of-range signal (the source raises
`ValueError("Strategy must return -1, 0, or 1")`). -/
def badSignalMsg : String := "strategy signal out of range"

/-- Whether a bar carries both required keys
(`{"open", "close"} <= bar.keys()`). -/
def barOk (bar : Bar) : Prop :=
  (getVal bar "open").isSome ∧ (getVal bar "close").isSome

instance (bar : Bar) : Decidable (barOk bar) := by
  unfold barOk; infer_instance

/-- Whether a strategy signal is in range (`signal in (-1, 0, 1)`). -/
def signalOk (z : Int) : Prop := z = -1 ∨ z = 0 ∨ z = 1

instance (z : Int) : Decidable (signalOk z) := by
  unfold signalOk; infer_instance

/-- One iteration of the bar loop of `Backtester.run`: key check, signal
check, close-on-flip, open-when-flat, equity-curve sample. -/
def stepBar (b : Backtester) (strategy : Bar → Int) (idx : Nat) (bar : Bar)
    (s : RunState) : Except String RunState :=
  if ¬ barOk bar then .error missingKeyMsg
  else
    let signal := strategy bar
    if ¬ signalOk signal then .error badSignalMsg
    else
      let openP := (getVal bar "open").getD 0
      let s1 :=
        if s.position ≠ 0 ∧ signal ≠ s.position then
          let pnl := (openP - s.entry_price) * (s.position : ℚ) - b.slippage
          { s with equity := s.equity + pnl,
                   trades := s.trades ++ [⟨idx, s.position, s.entry_price, openP, pnl⟩],
                   position := 0 }
        else s
      let s2 :=
        if s1.position = 0 ∧ signal ≠ 0 then
          { s1 with position := signal, entry_price := openP }
        else s1
      .ok { s2 with curve := s2.curve ++ [s2.equity] }

/-- The bar loop of `Backtester.run` (`for idx, bar in enumerate(prices)`). -/
def runLoop (b : Backtester) (strategy : Bar → Int) :
    Nat → List Bar → RunState → Except String RunState
  | _, [], s => .ok s
  | idx, bar :: rest, s =>
    match stepBar b strategy idx bar s with
    | .error e => .error e
    | .ok s2 => runLoop b strategy (idx + 1) rest s2

/-- Replace the last element of a list (`equity_curve[-1] = equity`). -/
def setLast : List ℚ → ℚ → List ℚ
  | [], _ => []
  | [_], v => [v]
  | x :: y :: rest, v => x :: setLast (y :: rest) v

/-- Force-close of a still-open position after the final bar
(`if position != 0: ...` at the end of `Backtester.run`). -/
def finalClose (b : Backtester) (prices : List Bar) (s : RunState) : RunState :=
  if s.position ≠ 0 then
    let closeP := (getVal (prices.getLastD []) "close").getD 0
    let pnl := (closeP - s.entry_price) * (s.position : ℚ) - b.slippage
    { s with equity := s.equity + pnl,
             trades := s.trades ++
               [⟨prices.length - 1, s.position, s.entry_price, closeP, pnl⟩],
             curve := setLast s.curve (s.equity + pnl) }
  else s

/-- `Backtester.run` restricted to its pure state (the optional datastore,
audit-log, metrics and RL hooks are best-effort side channels that never
alter the returned result).  `sq` models `math.sqrt`. -/
def Backtester.run (b : Backtester) (sq : ℚ → ℚ) (prices : List Bar)
    (strategy : Bar → Int) : Except String BacktestResult :=
  match runLoop b strategy 0 prices ⟨b.initial_capital, 0, 0, [], []⟩ with
  | .error e => .error e
  | .ok s0 =>
    let s := finalClose b prices s0
    let m0 : Metrics :=
      setItem (setItem (setItem [] "starting_equity" b.initial_capital)
        "ending_equity" s.equity) "net_return" (s.equity / b.initial_capital - 1)
    .ok (summarize sq { trades := s.trades, equity_curve := s.curve, metrics := m0 })

/-- Sum of recorded trade pnl. -/
def sumPnl (trades : List Trade) : ℚ := (trades.map Trade.pnl).sum

/-! ### Equity-accounting invariant of the run loop -/

/-- The run-loop invariant: current equity is the initial capital plus the
pnl of all recorded trades. -/
def EquityInv (b : Backtester) (s : RunState) : Prop :=
  s.equity = b.initial_capital + sumPnl s.trades

/-! ### Empty-input behaviour of `Backtester.run` -/

/-- The result value that `Backtester.run` produces on an empty price
sequence with initial capital `ic`. -/
def emptyRunResult (sq : ℚ → ℚ) (ic : ℚ) : BacktestResult :=
  summarize sq
    { trades := []
      equity_curve := []
      metrics := setItem (setItem (setItem [] "starting_equity" ic)
        "ending_equity" ic) "net_return" (ic / ic - 1) }

/-! ### Failure behaviour of `Backtester.run` -/

/-- A bar on which the run loop aborts: missing `open`/`close` key, or an
out-of-range strategy signal. -/
def badBar (strategy : Bar → Int) (bar : Bar) : Prop :=
  ¬ barOk bar ∨ ¬ signalOk (strategy bar)

/-- The per-step returns that the `summarize` loop accumulates: `v/prev - 1`
for consecutive samples, skipping steps whose predecessor is zero. -/
def pyReturns : List ℚ → List ℚ
  | [] => []
  | [_] => []
  | a :: b :: rest => (if a ≠ 0 then [b / a - 1] else []) ++ pyReturns (b :: rest)

/-- The sharpe value `summarize` computes from a list of per-step returns:
population mean over population stdev times `sqrt(n)`, zero unless the
stdev is positive (`sq` models `math.sqrt`). -/
def sharpeOfRets (sq : ℚ → ℚ) (rets : List ℚ) : ℚ :=
  let mean := rets.sum / (rets.length : ℚ)
  let variance := (rets.map (fun x => (x - mean) ^ 2)).sum / (rets.length : ℚ)
  if 0 < sq variance then mean / sq variance * sq ((rets.length : ℚ)) else 0

/-- Modelled from the spec: `sharpe = (mean / stdev) * sqrt(n)` of the
per-step equity deltas (differences of consecutive equity samples), zero when
the stdev is zero.  This is the claimed formula, to be compared with the one
the source computes. -/
def specDeltaSharpe (sq : ℚ → ℚ) (curve : List ℚ) : ℚ :=
  let deltas := (curve.zip curve.tail).map (fun p => p.2 - p.1)
  if deltas = [] then 0
  else
    let mean := deltas.sum / (deltas.length : ℚ)
    let variance := (deltas.map (fun x => (x - mean) ^ 2)).sum / (deltas.length : ℚ)
    if 0 < sq variance then mean / sq variance * sq ((deltas.length : ℚ)) else 0

/-- A stand-in for `math.sqrt` used in concrete counterexamples: zero at
zero (and on negatives), positive on positives. -/
def sqStub : ℚ → ℚ := fun x => if x ≤ 0 then 0 else 1

/-! ## AdaptiveStrategy (`src/qai/adaptive_strategy.py`) -/

/-- The adaptive state `{threshold, learning_rate, min_threshold,
max_threshold, history}`. -/
structure AdaptiveState where
  threshold : ℚ
  learning_rate : ℚ
  min_threshold : ℚ
  max_threshold : ℚ
  history : List ℚ

deriving DecidableEq

/-- The constructor checks of `AdaptiveStrategy.__init__`
(`0 < min_threshold <= max_threshold` and `0 < learning_rate <= 1`); note
that the initial threshold itself is *not* validated. -/
def AdaptiveState.validParams (s : AdaptiveState) : Prop :=
  0 < s.min_threshold ∧ s.min_threshold ≤ s.max_threshold ∧
    0 < s.learning_rate ∧ s.learning_rate ≤ 1

/-- `AdaptiveStrategy.on_trade_close`: append the pnl to the bounded history
(last 20 kept), then relax the threshold on a win (floored at
`min_threshold`), tighten it on a loss (capped at `max_threshold`), leave it
unchanged on zero pnl.  `pnl` and `entry` are the `pnl`/`entry` fields of
the closing trade. -/
def on_trade_close (s : AdaptiveState) (pnl entry : ℚ) : AdaptiveState :=
  let history := s.history ++ [pnl]
  let history := if 20 < history.length then history.drop (history.length - 20) else history
  let adjustment := s.learning_rate * (|pnl| / max |entry| (1 / 1000000))
  if 0 < pnl then
    { s with history := history,
             threshold := max s.min_threshold (s.threshold * (1 - adjustment)) }
  else if pnl < 0 then
    { s with history := history,
             threshold := min s.max_threshold (s.threshold * (1 + adjustment)) }
  else
    { s with history := history }

/-- Feed a sequence of closed trades (pnl, entry pairs) through
`on_trade_close`. -/
def applyTrades (s : AdaptiveState) : List (ℚ × ℚ) → AdaptiveState
  | [] => s
  | t :: rest => applyTrades (on_trade_close s t.1 t.2) rest

/-! ## OptimizerRL and RLContinuousAgent
(`src/qai/optimizer.py`, `src/qai/rl_continuous.py`) -/

/-- One replay-buffer sample (`Experience{state, reward}`). -/
structure Experience where
  state : List ℚ
  reward : ℚ

deriving DecidableEq

/-- `OptimizerState{weights, epsilon, gamma}`. -/
structure OptimizerState where
  weights : List ℚ
  epsilon : ℚ
  gamma : ℚ

deriving DecidableEq

/-- `OptimizerRL.policy`: dot product of weights and features (zip
truncates to the shorter list, as in the source). -/
def policy (weights features : List ℚ) : ℚ :=
  ((weights.zip features).map (fun p => p.1 * p.2)).sum

/-- `OptimizerRL.train_step`: one advantage-weighted weight update followed
by the epsilon decay (`×0.99`, floored at `0.01`). -/
def train_step (learning_rate : ℚ) (st : OptimizerState) (features : List ℚ)
    (reward : ℚ) : OptimizerState :=
  let prediction := policy st.weights features
  let advantage := reward - prediction
  let update := learning_rate * advantage
  { st with
      weights := (st.weights.zip features).map (fun p => p.1 + update * p.2),
      epsilon := max (1 / 100) (st.epsilon * (99 / 100)) }

/-- Python list slicing `xs[i:]` (negative start counts from the end,
clamped at zero). -/
def pySliceFrom {α : Type} (xs : List α) (i : Int) : List α :=
  if i < 0 then xs.drop (Int.toNat ((xs.length : Int) + i))
  else xs.drop i.toNat

/-- `RLContinuousAgent.train(batch_size)`: if the replay buffer is empty,
no update; otherwise train on the slice `replay_buffer[-batch_size:]` in
order.  Returns the updated optimizer state, the number of updates
performed, and the exact list of experiences consumed, in consumption
order. -/
def RLtrain (learning_rate : ℚ) (opt : OptimizerState)
    (replay_buffer : List Experience) (batch_size : Int) :
    OptimizerState × Nat × List Experience :=
  if replay_buffer = [] then (opt, 0, [])
  else
    let batch := pySliceFrom replay_buffer (-batch_size)
    (batch.foldl (fun o e => train_step learning_rate o e.state e.reward) opt,
      batch.length, batch)

/-! ## DistributedValidator + RedundancyChecker
(`src/qai/distributed_validator.py`) -/

/-- One node outcome (`NodeResult{node_id, status, payload, hash}`); the
payload is carried in its JSON-serialized form. -/
structure NodeResult where
  node_id : String
  status : String
  payload : String
  hash : Option String

deriving DecidableEq

/-- A successful node as built by `run_validation_batch`: status `success`
and `hash = sha256(canonical_json(payload))` (`hp` models the digest). -/
def mkSuccess (hp : String → String) (id payload : String) : NodeResult :=
  ⟨id, "success", payload, some (hp payload)⟩

/-- A failed node as built by `run_validation_batch`: status `error`, the
exception text as payload, and a null hash. -/
def mkError (id msg : String) : NodeResult :=
  ⟨id, "error", msg, none⟩

/-- The dict comprehension
`{r.node_id: r.hash for r in results if r.hash is not None}`. -/
def buildHashes (results : List NodeResult) : List (String × String) :=
  results.foldl
    (fun acc r => match r.hash with
      | some h => setItem acc r.node_id h
      | none => acc) []

/-- Output of `RedundancyChecker.evaluate`. -/
structure EvalSummary where
  consistent : Bool
  hashes : List (String × String)
  unique_hashes : List String
  failed_nodes : List String
  mismatched_nodes : List String

deriving DecidableEq

/-- `RedundancyChecker.evaluate`. -/
def evaluate (results : List NodeResult) : EvalSummary :=
  let hashes := buildHashes results
  let unique := (hashes.map Prod.snd).dedup
  let failed := (results.filter (fun r => r.status ≠ "success")).map NodeResult.node_id
  let consistent := decide (unique.length ≤ 1) && failed.isEmpty
  let mismatched := if unique.length ≤ 1 then [] else hashes.map Prod.fst
  ⟨consistent, hashes, unique, failed, mismatched⟩

/-- Output of `DistributedValidator.consolidate_results` (the evaluate
summary plus `node_count` and `successful_nodes`). -/
structure ConsolidatedSummary extends EvalSummary where
  node_count : Nat
  successful_nodes : List String

deriving DecidableEq

/-- `DistributedValidator.consolidate_results` over the collected node
results. -/
def consolidate_results (results : List NodeResult) : ConsolidatedSummary :=
  ⟨evaluate results, results.length,
    (results.filter (fun r => r.status = "success")).map NodeResult.node_id⟩

/-- The distinct non-null hashes of the batch, in first-appearance order. -/
def distinctHashes (results : List NodeResult) : List String :=
  (results.filterMap NodeResult.hash).dedup

/-- The hash-carrying `(node_id, hash)` pairs of the batch in order. -/
def hashPairs (results : List NodeResult) : List (String × String) :=
  results.filterMap (fun r => r.hash.map (fun h => (r.node_id, h)))

/-! ## JSON model and canonical serialization

Audit entries are JSON objects; `json.dumps(..., sort_keys=True,
ensure_ascii=False)` with the default separators is the canonical signed
byte sequence.  Numbers are modelled as integers (the entries the core
writes carry strings, integers and nested objects). -/

mutual

inductive Json where
  | null
  | bool (b : Bool)
  | num (n : Int)
  | str (s : String)
  | arr (items : JsonList)
  | obj (fields : JsonFields)

inductive JsonList where
  | nil
  | cons (head : Json) (tail : JsonList)

inductive JsonFields where
  | nil
  | cons (key : String) (value : Json) (tail : JsonFields)

end

deriving instance DecidableEq for Json

/-- Bridge from an association-list dict to serializer fields. -/
def fieldsOf : List (String × Json) → JsonFields
  | [] => .nil
  | (k, v) :: rest => .cons k v (fieldsOf rest)

/-- Bridge from serializer fields back to an association-list dict. -/
def listOfFields : JsonFields → List (String × Json)
  | .nil => []
  | .cons k v rest => (k, v) :: listOfFields rest

def JsonList.isEmpty : JsonList → Bool
  | .nil => true
  | .cons _ _ => false

def JsonFields.isEmpty : JsonFields → Bool
  | .nil => true
  | .cons _ _ _ => false

/-- Lowercase hex digit, as `%04x` formatting uses. -/
def hexDigitChar (n : Nat) : Char :=
  if n < 10 then Char.ofNat (48 + n) else Char.ofNat (87 + n)

/-- Escape one character the way `json.dumps(..., ensure_ascii=False)`
does: quote and backslash get a backslash escape, control characters get
their short escapes or `\u00XX`, everything else (non-ASCII included) is
preserved verbatim. -/
def escChar (c : Char) : String :=
  if c = '"' then "\\\""
  else if c = '\\' then "\\\\"
  else if c.val < 32 then
    if c = '\n' then "\\n"
    else if c = '\t' then "\\t"
    else if c = '\r' then "\\r"
    else if c.val = 8 then "\\b"
    else if c.val = 12 then "\\f"
    else "\\u00" ++ String.mk [hexDigitChar (c.toNat / 16), hexDigitChar (c.toNat % 16)]
  else String.mk [c]

def escString (s : String) : String :=
  String.join (s.data.map escChar)

/-- A JSON string literal. -/
def quoteStr (s : String) : String :=
  "\"" ++ escString s ++ "\""

/-- Code-point lexicographic comparison on character lists — the order
Python compares strings by. -/
def charListLe : List Char → List Char → Bool
  | [], _ => true
  | _ :: _, [] => false
  | a :: as, b :: bs =>
    if a.val < b.val then true
    else if b.val < a.val then false
    else charListLe as bs

/-- Python string `<=` (code-point lexicographic). -/
def strLe (a b : String) : Bool :=
  charListLe a.data b.data

/-- Insert a field into a key-sorted field sequence (Python sorts keys by
code points). -/
def insertFieldSorted (k : String) (v : Json) : JsonFields → JsonFields
  | .nil => .cons k v .nil
  | .cons k2 v2 rest =>
    if strLe k k2 then .cons k v (.cons k2 v2 rest)
    else .cons k2 v2 (insertFieldSorted k v rest)

/-- Insertion sort of an object's fields by key. -/
def sortFields : JsonFields → JsonFields
  | .nil => .nil
  | .cons k v rest => insertFieldSorted k v (sortFields rest)

mutual

/-- Sort every object's fields by key, recursively (`sort_keys=True`). -/
def sortJson : Json → Json
  | .null => .null
  | .bool b => .bool b
  | .num n => .num n
  | .str s => .str s
  | .arr xs => .arr (sortJsonList xs)
  | .obj fs => .obj (sortFields (sortJsonFields fs))

def sortJsonList : JsonList → JsonList
  | .nil => .nil
  | .cons x xs => .cons (sortJson x) (sortJsonList xs)

def sortJsonFields : JsonFields → JsonFields
  | .nil => .nil
  | .cons k v rest => .cons k (sortJson v) (sortJsonFields rest)

end

mutual

/-- `json.dumps` with the default separators (`", "` and `": "`) and
`ensure_ascii=False`, without key sorting. -/
def dumpJson : Json → String
  | .null => "null"
  | .bool b => if b then "true" else "false"
  | .num n => toString n
  | .str s => quoteStr s
  | .arr xs => "[" ++ dumpJsonList xs ++ "]"
  | .obj fs => "\x7b" ++ dumpJsonFields fs ++ "\x7d"

def dumpJsonList : JsonList → String
  | .nil => ""
  | .cons x .nil => dumpJson x
  | .cons x (.cons y rest) => dumpJson x ++ ", " ++ dumpJsonList (.cons y rest)

def dumpJsonFields : JsonFields → String
  | .nil => ""
  | .cons k v .nil => quoteStr k ++ ": " ++ dumpJson v
  | .cons k v (.cons k2 v2 rest) =>
    quoteStr k ++ ": " ++ dumpJson v ++ ", " ++ dumpJsonFields (.cons k2 v2 rest)

end

/-- `json.dumps(value, sort_keys=True, ensure_ascii=False)`. -/
def canonicalJson (j : Json) : String :=
  dumpJson (sortJson j)

/-- A parsed top-level audit entry: a Python dict in insertion order. -/
abbrev Entry := List (String × Json)

/-- Python truthiness of a JSON value. -/
def Json.truthy : Json → Bool
  | .null => false
  | .bool b => b
  | .num n => decide (n ≠ 0)
  | .str s => decide (s ≠ "")
  | .arr xs => !xs.isEmpty
  | .obj fs => !fs.isEmpty

/-! ## Signed audit verification (`src/qai/hmac_utils.py`) -/

/-- `_normalize_entry`: the entry with the `hmac` field removed. -/
def normalizeEntry (entry : Entry) : Entry :=
  entry.filter (fun p => p.1 ≠ "hmac")

/-- The canonical byte sequence the verifier recomputes the signature over:
`json.dumps(normalized, sort_keys=True, ensure_ascii=False)`. -/
def canonMsg (entry : Entry) : String :=
  canonicalJson (.obj (fieldsOf (normalizeEntry entry)))

/-- Per-entry outcome of `verify_audit_stream`: signature valid, missing
(absent or falsy), mismatching, or a `TypeError` from `compare_digest` on a
truthy non-string `hmac` value. -/
inductive Verdict where
  | valid
  | missingHmac
  | hmacMismatch
  | typeError

deriving DecidableEq

/-- The body of the `verify_audit_stream` loop for one entry.  `mac` models
`hmac.new(key, msg, sha256).hexdigest()`. -/
def verifyEntry (mac : String → String → String) (key : String)
    (entry : Entry) : Verdict :=
  match getVal entry "hmac" with
  | none => .missingHmac
  | some sig =>
    if ¬ sig.truthy then .missingHmac
    else
      match sig with
      | .str s => if s = mac key (canonMsg entry) then .valid else .hmacMismatch
      | _ => .typeError

/-- The `verify_audit_stream` fold: totals, verified count and the failure
list (index, reason); a `TypeError` escapes the loop. -/
def streamGo (mac : String → String → String) (key : String) :
    List Entry → Nat → Nat → Nat → List (Nat × Verdict) →
    Except String (Nat × Nat × List (Nat × Verdict))
  | [], _, total, verified, failures => .ok (total, verified, failures)
  | e :: rest, idx, total, verified, failures =>
    match verifyEntry mac key e with
    | .valid => streamGo mac key rest (idx + 1) (total + 1) (verified + 1) failures
    | .typeError => .error "TypeError"
    | v => streamGo mac key rest (idx + 1) (total + 1) verified (failures ++ [(idx, v)])

/-- `verify_audit_stream(entries, key)`. -/
def verify_audit_stream (mac : String → String → String) (entries : List Entry)
    (key : String) : Except String (Nat × Nat × List (Nat × Verdict)) :=
  streamGo mac key entries 0 0 0 []

/-! ## Signed audit writer (`src/qai/logging_utils.py`) -/

/-- `d.setdefault(k, v)` for JSON-valued dicts. -/
def setdefaultJ (entry : Entry) (k : String) (v : Json) : Entry :=
  if (getVal entry k).isSome then entry else entry ++ [(k, v)]

/-- The `for key, value in _default_session_info().items():
session_info.setdefault(key, value)` merge. -/
def mergeSessionInfo (existing : Entry) (info : Entry) : Entry :=
  info.foldl (fun acc p => setdefaultJ acc p.1 p.2) existing

/-- The enrichment phase of `append_signed_audit` before signing: insert
`session_id` when truthy, `setdefault` the timestamp, and merge the
OS-derived session info into the `session` sub-dict without overwriting
pre-seeded sub-fields.  `tsNow` is the current ISO timestamp and
`sessionInfo` the `_default_session_info()` dict.  A truthy non-dict
pre-seeded `session` value makes the merge loop raise (`AttributeError`) as
soon as it has one item to set. -/
def buildUnsigned (payload : Entry) (session_id : Option String)
    (tsNow : String) (sessionInfo : Entry) : Except String Entry :=
  let e2 := setdefaultJ
    (match session_id with
      | some sid => if sid ≠ "" then setItem payload "session_id" (.str sid) else payload
      | none => payload) "ts" (.str tsNow)
  match getVal e2 "session" with
  | none => .ok (e2 ++ [("session", .obj (fieldsOf (mergeSessionInfo [] sessionInfo)))])
  | some (.obj sess) =>
    .ok (setItem e2 "session"
      (.obj (fieldsOf (mergeSessionInfo (listOfFields sess) sessionInfo))))
  | some _ => if sessionInfo.isEmpty then .ok e2 else .error "AttributeError"

/-- `append_signed_audit`, up to the entry it appends to the log file.
External inputs are parameters: `mac` models HMAC-SHA256 and `keyOpt` the
resolved signing key (`hmac_key or os.environ.get("QAI_HMAC_KEY")`, `none`
when neither is truthy).  With a key, the signature is the MAC of the
canonical serialization of the enriched entry (which still lacks `hmac`
only if the payload did); without one, `hmac` is written as an explicit
null. -/
def append_signed_audit (mac : String → String → String) (keyOpt : Option String)
    (payload : Entry) (session_id : Option String) (tsNow : String)
    (sessionInfo : Entry) : Except String Entry :=
  match buildUnsigned payload session_id tsNow sessionInfo with
  | .error e => .error e
  | .ok e3 =>
    match keyOpt with
    | some k => .ok (setItem e3 "hmac" (.str (mac k (canonicalJson (.obj (fieldsOf e3))))))
    | none => .ok (setItem e3 "hmac" .null)

/-! ## File-level audit verification

`verify_audit_file` (`src/qai/hmac_utils.py`) and `verify_audit_log`
(`scripts/recover_state.py`).  The filesystem is a parameter: `content` is
`none` for a missing file, otherwise the file text (respectively its
lines); `parse` models `json.loads` on one line (`none` = decode error). -/

/-- A line of `verify_audit_file`: the parsed entry, or the
`{"raw": ..., "error": ..., "hmac": None}` placeholder on a decode
failure. -/
def parseOrRaw (parse : String → Option Entry) (line : String) : Entry :=
  match parse line with
  | some e => e
  | none => [("raw", .str line), ("error", .str "JSONDecodeError"), ("hmac", Json.null)]

/-- `verify_audit_file(path, key)`: reads the file (raising
`FileNotFoundError` when it does not exist — there is no existence check in
the source), splits it into lines, strips and drops blanks, parses each
line, and delegates to `verify_audit_stream`. -/
def verify_audit_file (mac : String → String → String)
    (parse : String → Option Entry) (content : Option String) (key : String) :
    Except String (Nat × Nat × List (Nat × Verdict)) :=
  match content with
  | none => .error "FileNotFoundError"
  | some text =>
    let entries := (((text.splitOn "\n").map String.trim).filter
      (fun l => l ≠ "")).map (parseOrRaw parse)
    verify_audit_stream mac entries key

/-- Per-line outcome of `verify_audit_log` in `scripts/recover_state.py`:
verified, `INVALID JSON`, `MISSING_HMAC`, `HMAC_MISMATCH`, or the
`VERIFICATION_ERROR: ...` catch-all (e.g. a `TypeError` from
`compare_digest` on a non-string `hmac`). -/
inductive LogVerdict where
  | verifiedLine
  | invalidJson
  | missingHmac
  | hmacMismatch
  | verificationError

deriving DecidableEq

/-- One iteration of the `verify_audit_log` loop on a non-blank stripped
line: parse, pop `hmac`, falsy check, recompute and compare. -/
def verifyLogLine (mac : String → String → String) (key : String)
    (parse : String → Option Entry) (line : String) : LogVerdict :=
  match parse line with
  | none => .invalidJson
  | some entry =>
    match getVal entry "hmac" with
    | none => .missingHmac
    | some sig =>
      if ¬ sig.truthy then .missingHmac
      else
        match sig with
        | .str s => if mac key (canonMsg entry) = s then .verifiedLine else .hmacMismatch
        | _ => .verificationError

/-- `verify_audit_log(key, path)` of `scripts/recover_state.py`: a missing
file short-circuits to `(0, 0, 0, [])`; otherwise every non-blank line is
counted and verified, failures collected as `(line number, reason)` with
line numbers starting at 1. -/
def verify_audit_log (mac : String → String → String) (key : String)
    (parse : String → Option Entry) (content : Option (List String)) :
    Nat × Nat × Nat × List (Nat × LogVerdict) :=
  match content with
  | none => (0, 0, 0, [])
  | some lines =>
    (lines.enumFrom 1).foldl
      (fun acc p =>
        if p.2.trim = "" then acc
        else
          match verifyLogLine mac key parse p.2.trim with
          | .verifiedLine => (acc.1 + 1, acc.2.1 + 1, acc.2.2.1, acc.2.2.2)
          | v => (acc.1 + 1, acc.2.1, acc.2.2.1 + 1, acc.2.2.2 ++ [(p.1, v)]))
      (0, 0, 0, [])

/-- A concrete stand-in for HMAC-SHA256 hexdigests in counterexamples and
witnesses: digests are non-empty and, for a fixed key, injective in the
message. -/
def toyMac (key msg : String) : String :=
  "sig:" ++ key ++ ":" ++ msg

/-! ## Theorems -/

/-! ### Basic lemmas about the dictionary embedding -/

theorem getVal_append_of_isSome {α : Type} (m l : List (String × α)) (k : String)
    (v : α) (h : getVal m k = some v) : getVal (m ++ l) k = some v := by
  induction m with
  | nil => simp [getVal] at h
  | cons p rest ih =>
    by_cases hp : p.1 = k
    · simpa [getVal, hp] using h
    · simp only [getVal, hp, if_false, List.cons_append] at h ⊢
      exact ih h

theorem getVal_setdefaultQ_of_isSome (m : Metrics) (k2 : String) (v2 : ℚ)
    (k : String) (v : ℚ) (h : getVal m k = some v) :
    getVal (setdefaultQ m k2 v2) k = some v := by
  unfold setdefaultQ
  split
  · exact h
  · exact getVal_append_of_isSome m _ k v h

theorem getVal_applySetdefaults_of_isSome (ps : List (String × ℚ)) (m : Metrics)
    (k : String) (v : ℚ) (h : getVal m k = some v) :
    getVal (applySetdefaults m ps) k = some v := by
  induction ps generalizing m with
  | nil => exact h
  | cons p rest ih =>
    exact ih _ (getVal_setdefaultQ_of_isSome m p.1 p.2 k v h)

theorem sumPnl_append (t : List Trade) (tr : Trade) :
    sumPnl (t ++ [tr]) = sumPnl t + tr.pnl := by
  simp [sumPnl]

theorem stepBar_equity (b : Backtester) (strategy : Bar → Int) (idx : Nat)
    (bar : Bar) (s s2 : RunState) (h : stepBar b strategy idx bar s = .ok s2)
    (hinv : EquityInv b s) : EquityInv b s2 := by
  unfold stepBar at h
  split at h
  · exact absurd h (by simp)
  · dsimp only at h
    split at h
    · exact absurd h (by simp)
    · simp only [Except.ok.injEq] at h
      subst h
      unfold EquityInv at hinv ⊢
      dsimp only
      split
      · split
        · dsimp only; rw [sumPnl_append]; dsimp only; linarith
        · dsimp only; rw [sumPnl_append]; dsimp only; linarith
      · split
        · dsimp only; exact hinv
        · exact hinv

theorem runLoop_equity (b : Backtester) (strategy : Bar → Int) (bars : List Bar)
    (idx : Nat) (s s2 : RunState)
    (h : runLoop b strategy idx bars s = .ok s2) (hinv : EquityInv b s) :
    EquityInv b s2 := by
  induction bars generalizing idx s with
  | nil =>
    simp only [runLoop, Except.ok.injEq] at h
    exact h ▸ hinv
  | cons bar rest ih =>
    simp only [runLoop] at h
    split at h
    · exact absurd h (by simp)
    · exact ih _ _ h (stepBar_equity b strategy idx bar s _ (by assumption) hinv)

theorem finalClose_equity (b : Backtester) (prices : List Bar) (s : RunState)
    (hinv : EquityInv b s) : EquityInv b (finalClose b prices s) := by
  unfold EquityInv at hinv ⊢
  unfold finalClose
  split
  · dsimp only; rw [sumPnl_append]; dsimp only; linarith
  · exact hinv

/-- C1: for every run that returns a result, the sum of recorded trade pnl
equals `ending_equity - starting_equity` as reported in the metrics, where
`starting_equity` is the initial capital. -/
theorem run_pnl_sum_eq_equity_change (b : Backtester) (sq : ℚ → ℚ)
    (prices : List Bar) (strategy : Bar → Int) (res : BacktestResult)
    (h : b.run sq prices strategy = Except.ok res) :
    ∃ es ss, getVal res.metrics "ending_equity" = some es ∧
      getVal res.metrics "starting_equity" = some ss ∧
      ss = b.initial_capital ∧ sumPnl res.trades = es - ss := by
  unfold Backtester.run at h
  split at h
  · exact absurd h (by simp)
  · rename_i s0 heq
    simp only [Except.ok.injEq] at h
    subst h
    have hinv0 : EquityInv b s0 := by
      refine runLoop_equity b strategy prices 0 _ s0 heq ?_
      simp [EquityInv, sumPnl]
    have hinv : EquityInv b (finalClose b prices s0) := finalClose_equity b prices s0 hinv0
    refine ⟨(finalClose b prices s0).equity, b.initial_capital, ?_, ?_, rfl, ?_⟩
    · exact getVal_applySetdefaults_of_isSome _ _ _ _ rfl
    · exact getVal_applySetdefaults_of_isSome _ _ _ _ rfl
    · unfold EquityInv at hinv
      simp only [summarize]
      linarith

/-- C10: a run over an empty price sequence returns normally, records no
trades, leaves the equity curve empty, and reports
`starting_equity = ending_equity = initial_capital` and `net_return = 0`. -/
theorem run_empty_prices (b : Backtester) (sq : ℚ → ℚ) (strategy : Bar → Int)
    (h : 0 < b.initial_capital) :
    ∃ res, b.run sq [] strategy = Except.ok res ∧ res.trades = [] ∧
      res.equity_curve = [] ∧
      getVal res.metrics "starting_equity" = some b.initial_capital ∧
      getVal res.metrics "ending_equity" = some b.initial_capital ∧
      getVal res.metrics "net_return" = some 0 := by
  have hne : b.initial_capital ≠ 0 := ne_of_gt h
  refine ⟨emptyRunResult sq b.initial_capital, ?_, rfl, rfl, rfl, rfl, ?_⟩
  · rfl
  · have hv : getVal (emptyRunResult sq b.initial_capital).metrics "net_return" =
        some (b.initial_capital / b.initial_capital - 1) := rfl
    rw [hv, div_self hne]
    norm_num

theorem stepBar_missing (b : Backtester) (strategy : Bar → Int) (idx : Nat)
    (bar : Bar) (s : RunState) (h : ¬ barOk bar) :
    stepBar b strategy idx bar s = .error missingKeyMsg := by
  unfold stepBar
  simp [h]

theorem stepBar_badSignal (b : Backtester) (strategy : Bar → Int) (idx : Nat)
    (bar : Bar) (s : RunState) (h : barOk bar) (h2 : ¬ signalOk (strategy bar)) :
    stepBar b strategy idx bar s = .error badSignalMsg := by
  unfold stepBar
  simp [h, h2]

theorem stepBar_ok (b : Backtester) (strategy : Bar → Int) (idx : Nat)
    (bar : Bar) (s : RunState) (h : barOk bar) (h2 : signalOk (strategy bar)) :
    ∃ s2, stepBar b strategy idx bar s = .ok s2 := by
  unfold stepBar
  simp [h, h2]

theorem runLoop_error_iff (b : Backtester) (strategy : Bar → Int)
    (bars : List Bar) (idx : Nat) (s : RunState) :
    (∃ e, runLoop b strategy idx bars s = .error e) ↔
      ∃ bar ∈ bars, badBar strategy bar := by
  induction bars generalizing idx s with
  | nil => simp [runLoop]
  | cons bar rest ih =>
    by_cases hb : badBar strategy bar
    · constructor
      · intro _
        exact ⟨bar, by simp, hb⟩
      · intro _
        rcases Classical.em (barOk bar) with hok | hmiss
        · have h2 : ¬ signalOk (strategy bar) := by
            rcases hb with h1 | h2
            · exact absurd hok h1
            · exact h2
          refine ⟨badSignalMsg, ?_⟩
          simp [runLoop, stepBar_badSignal b strategy idx bar s hok h2]
        · refine ⟨missingKeyMsg, ?_⟩
          simp [runLoop, stepBar_missing b strategy idx bar s hmiss]
    · have hok : barOk bar := by
        by_contra hc
        exact hb (Or.inl hc)
      have h2 : signalOk (strategy bar) := by
        by_contra hc
        exact hb (Or.inr hc)
      obtain ⟨s2, hs2⟩ := stepBar_ok b strategy idx bar s hok h2
      constructor
      · intro ⟨e, he⟩
        simp only [runLoop, hs2] at he
        obtain ⟨bar2, hmem, hbad⟩ := (ih (idx + 1) s2).mp ⟨e, he⟩
        exact ⟨bar2, by simp [hmem], hbad⟩
      · intro ⟨bar2, hmem, hbad⟩
        have hmem2 : bar2 ∈ rest := by
          rcases List.mem_cons.mp hmem with h | h
          · exact absurd (h ▸ hbad) hb
          · exact h
        obtain ⟨e, he⟩ := (ih (idx + 1) s2).mpr ⟨bar2, hmem2, hbad⟩
        refine ⟨e, ?_⟩
        simp [runLoop, hs2, he]

theorem runLoop_clean_prefix (b : Backtester) (strategy : Bar → Int)
    (l₁ l₂ : List Bar) (idx : Nat) (s : RunState)
    (h : ∀ x ∈ l₁, barOk x ∧ signalOk (strategy x)) :
    ∃ s1, runLoop b strategy idx (l₁ ++ l₂) s =
      runLoop b strategy (idx + l₁.length) l₂ s1 := by
  induction l₁ generalizing idx s with
  | nil => exact ⟨s, by simp [runLoop]⟩
  | cons bar rest ih =>
    obtain ⟨hok, hsig⟩ := h bar (by simp)
    obtain ⟨s2, hs2⟩ := stepBar_ok b strategy idx bar s hok hsig
    obtain ⟨s1, hs1⟩ := ih (idx + 1) s2 (fun x hx => h x (by simp [hx]))
    refine ⟨s1, ?_⟩
    have hlen : idx + (bar :: rest).length = idx + 1 + rest.length := by
      simp only [List.length_cons]
      omega
    rw [hlen]
    calc runLoop b strategy idx ((bar :: rest) ++ l₂) s
        = runLoop b strategy (idx + 1) (rest ++ l₂) s2 := by
          simp only [List.cons_append, runLoop, hs2, List.append_eq]
      _ = runLoop b strategy (idx + 1 + rest.length) l₂ s1 := hs1

/-- C8: `Backtester.run` fails (with the error propagated to the caller) if
and only if some bar lacks an `open`/`close` key or the strategy signal on
some bar is outside `{-1, 0, 1}`; moreover on the first offending bar the
missing-key check wins — the run fails with the missing-key error even when
the strategy signal on that bar would also have been out of range. -/
theorem run_error_iff (b : Backtester) (sq : ℚ → ℚ) (prices : List Bar)
    (strategy : Bar → Int) :
    ((∃ e, b.run sq prices strategy = Except.error e) ↔
      ∃ bar ∈ prices, ¬ barOk bar ∨ ¬ signalOk (strategy bar)) ∧
    (∀ l₁ bar l₂, prices = l₁ ++ bar :: l₂ →
      (∀ x ∈ l₁, barOk x ∧ signalOk (strategy x)) → ¬ barOk bar →
      b.run sq prices strategy = Except.error missingKeyMsg) := by
  constructor
  · have hiff := runLoop_error_iff b strategy prices 0 ⟨b.initial_capital, 0, 0, [], []⟩
    constructor
    · intro ⟨e, he⟩
      unfold Backtester.run at he
      split at he
      · rename_i heq
        exact hiff.mp ⟨_, heq⟩
      · exact absurd he (by simp)
    · intro hex
      obtain ⟨e, he⟩ := hiff.mpr hex
      refine ⟨e, ?_⟩
      unfold Backtester.run
      rw [he]
  · intro l₁ bar l₂ hp hclean hmiss
    subst hp
    obtain ⟨s1, hs1⟩ := runLoop_clean_prefix b strategy l₁ (bar :: l₂) 0
      ⟨b.initial_capital, 0, 0, [], []⟩ hclean
    unfold Backtester.run
    rw [hs1]
    simp [runLoop, stepBar_missing b strategy _ bar s1 hmiss]

/-! ### Idempotence of `summarize` -/

theorem getVal_append_of_none {α : Type} (m l : List (String × α)) (k : String)
    (h : getVal m k = none) : getVal (m ++ l) k = getVal l k := by
  induction m with
  | nil => simp [getVal]
  | cons p rest ih =>
    by_cases hp : p.1 = k
    · simp [getVal, hp] at h
    · simp only [getVal, hp, if_false, List.cons_append] at h ⊢
      exact ih h

theorem isSome_setdefaultQ_self (m : Metrics) (k : String) (v : ℚ) :
    (getVal (setdefaultQ m k v) k).isSome := by
  unfold setdefaultQ
  split
  · assumption
  · rename_i hnone
    rw [getVal_append_of_none m _ k (by
      cases hk : getVal m k
      · rfl
      · simp [hk] at hnone)]
    simp [getVal]

theorem isSome_applySetdefaults_mono (ps : List (String × ℚ)) (m : Metrics)
    (k : String) (h : (getVal m k).isSome) :
    (getVal (applySetdefaults m ps) k).isSome := by
  obtain ⟨v, hv⟩ := Option.isSome_iff_exists.mp h
  exact Option.isSome_iff_exists.mpr
    ⟨v, getVal_applySetdefaults_of_isSome ps m k v hv⟩

theorem isSome_applySetdefaults_of_mem (ps : List (String × ℚ)) (m : Metrics)
    (p : String × ℚ) (h : p ∈ ps) :
    (getVal (applySetdefaults m ps) p.1).isSome := by
  induction ps generalizing m with
  | nil => simp at h
  | cons q rest ih =>
    rcases List.mem_cons.mp h with hq | hq
    · subst hq
      exact isSome_applySetdefaults_mono rest _ p.1
        (isSome_setdefaultQ_self m p.1 p.2)
    · exact ih _ hq

theorem setdefaultQ_of_isSome (m : Metrics) (k : String) (v : ℚ)
    (h : (getVal m k).isSome) : setdefaultQ m k v = m := by
  unfold setdefaultQ
  simp [h]

theorem applySetdefaults_no_change (ps : List (String × ℚ)) (m : Metrics)
    (h : ∀ p ∈ ps, (getVal m p.1).isSome) : applySetdefaults m ps = m := by
  induction ps with
  | nil => rfl
  | cons p rest ih =>
    unfold applySetdefaults
    rw [setdefaultQ_of_isSome m p.1 p.2 (h p (by simp))]
    exact ih (fun q hq => h q (by simp [hq]))

/-- C7: `summarize` is idempotent (a second call changes nothing) and never
overwrites a metric value pre-seeded by the caller. -/
theorem summarize_idempotent_and_preserving (sq : ℚ → ℚ) (r : BacktestResult) :
    summarize sq (summarize sq r) = summarize sq r ∧
    ∀ k v, getVal r.metrics k = some v →
      getVal (summarize sq r).metrics k = some v := by
  constructor
  · unfold summarize summarizeMetrics
    simp only
    congr 1
    exact applySetdefaults_no_change _ _
      (fun p hp => isSome_applySetdefaults_of_mem _ _ p hp)
  · intro k v hv
    exact getVal_applySetdefaults_of_isSome _ _ _ _ hv

/-! ### The sharpe metric of `summarize` -/

theorem getVal_setdefaultQ_other (m : Metrics) (k2 : String) (v2 : ℚ)
    (k : String) (h : k2 ≠ k) : getVal (setdefaultQ m k2 v2) k = getVal m k := by
  unfold setdefaultQ
  split
  · rfl
  · cases hk : getVal m k with
    | some v => exact getVal_append_of_isSome m _ k v hk
    | none =>
      rw [getVal_append_of_none m _ k hk]
      simp [getVal, h]

theorem getVal_applySetdefaults_of_none (ps : List (String × ℚ)) (m : Metrics)
    (k : String) (h : getVal m k = none) :
    getVal (applySetdefaults m ps) k = getVal ps k := by
  induction ps generalizing m with
  | nil => simpa [applySetdefaults, getVal] using h
  | cons p rest ih =>
    by_cases hp : p.1 = k
    · have hset : getVal (setdefaultQ m p.1 p.2) k = some p.2 := by
        unfold setdefaultQ
        rw [hp, h]
        simp only [Option.isSome_none, Bool.false_eq_true, if_false]
        rw [getVal_append_of_none m _ k h]
        simp [getVal, hp]
      calc getVal (applySetdefaults (setdefaultQ m p.1 p.2) rest) k
          = some p.2 := getVal_applySetdefaults_of_isSome rest _ k p.2 hset
        _ = getVal (p :: rest) k := by simp [getVal, hp]
    · calc getVal (applySetdefaults (setdefaultQ m p.1 p.2) rest) k
          = getVal rest k :=
            ih _ (by rw [getVal_setdefaultQ_other m p.1 p.2 k hp]; exact h)
        _ = getVal (p :: rest) k := by simp [getVal, hp]

theorem scanStep_rets (rest : List ℚ) (c0 : ℚ) (peak maxdd : ℚ) (acc : List ℚ) :
    (rest.foldl scanStep ⟨peak, maxdd, acc, c0⟩).rets = acc ++ pyReturns (c0 :: rest) := by
  induction rest generalizing c0 peak maxdd acc with
  | nil => simp [pyReturns]
  | cons b rest ih =>
    simp only [List.foldl_cons, scanStep]
    rw [ih]
    by_cases hc : c0 ≠ 0 <;> simp [pyReturns, hc]

/-- C5 (amended): the `sharpe_ratio` metric is computed from the per-step
equity *returns* (`value/prev - 1`, steps with a zero predecessor skipped),
not from the per-step deltas: it equals `(mean / stdev) * sqrt(n)` of those
returns, and is zero unless that stdev is positive. -/
theorem sharpe_is_returns_based (sq : ℚ → ℚ) (r : BacktestResult)
    (hnone : getVal r.metrics "sharpe_ratio" = none)
    (hrets : pyReturns r.equity_curve ≠ []) :
    getVal (summarize sq r).metrics "sharpe_ratio" =
      some (sharpeOfRets sq (pyReturns r.equity_curve)) := by
  match hcurve : r.equity_curve with
  | [] => rw [hcurve] at hrets; simp [pyReturns] at hrets
  | [c0] => rw [hcurve] at hrets; simp [pyReturns] at hrets
  | c0 :: c1 :: rest =>
    rw [hcurve] at hrets
    unfold summarize summarizeMetrics
    simp only
    rw [hcurve, getVal_applySetdefaults_of_none _ _ _ hnone]
    simp only [metricPairs, scanStep_rets, List.nil_append]
    rw [if_neg hrets]
    simp [getVal, sharpeOfRets]

/-- C5 counterexample: on the equity curve `[1, 2, 4]` the per-step returns
are `[1, 1]` (stdev zero), so `summarize` reports `sharpe_ratio = 0`, while
the delta-based formula of the claim gives a nonzero value (`3/2` under the
`sqStub` square-root model, `3·√2` under the real one). -/
theorem sharpe_delta_claim_cx :
    getVal (summarize sqStub ⟨[], [1, 2, 4], []⟩).metrics "sharpe_ratio" = some 0 ∧
    specDeltaSharpe sqStub [1, 2, 4] = 3 / 2 ∧
    sqStub 0 = 0 ∧ (0 : ℚ) ≠ 3 / 2 := by
  refine ⟨?_, ?_, by norm_num [sqStub], by norm_num⟩
  · norm_num [summarize, summarizeMetrics, metricPairs, applySetdefaults,
      setdefaultQ, getVal, scanStep, sqStub, List.foldl, List.cons_ne_nil]
    decide
  · norm_num [specDeltaSharpe, sqStub, List.zip, List.zipWith, List.cons_ne_nil]

theorem on_trade_close_fields (s : AdaptiveState) (pnl entry : ℚ) :
    (on_trade_close s pnl entry).min_threshold = s.min_threshold ∧
    (on_trade_close s pnl entry).max_threshold = s.max_threshold ∧
    (on_trade_close s pnl entry).learning_rate = s.learning_rate := by
  unfold on_trade_close
  split
  · exact ⟨rfl, rfl, rfl⟩
  · split
    · exact ⟨rfl, rfl, rfl⟩
    · exact ⟨rfl, rfl, rfl⟩

theorem adjustment_nonneg (s : AdaptiveState) (pnl entry : ℚ)
    (hlr : 0 < s.learning_rate) :
    0 ≤ s.learning_rate * (|pnl| / max |entry| (1 / 1000000)) := by
  have hden : (0 : ℚ) < max |entry| (1 / 1000000) :=
    lt_max_of_lt_right (by norm_num)
  positivity

theorem on_trade_close_bounds (s : AdaptiveState) (pnl entry : ℚ)
    (hv : s.validParams) (h1 : s.min_threshold ≤ s.threshold)
    (h2 : s.threshold ≤ s.max_threshold) :
    s.min_threshold ≤ (on_trade_close s pnl entry).threshold ∧
      (on_trade_close s pnl entry).threshold ≤ s.max_threshold := by
  obtain ⟨hmin, hminmax, hlr, _⟩ := hv
  have hadj := adjustment_nonneg s pnl entry hlr
  have hθ : 0 ≤ s.threshold := le_trans (le_of_lt hmin) h1
  unfold on_trade_close
  split
  · constructor
    · exact le_max_left _ _
    · apply max_le hminmax
      calc s.threshold * (1 - s.learning_rate * (|pnl| / max |entry| (1 / 1000000)))
          ≤ s.threshold * 1 := by
            apply mul_le_mul_of_nonneg_left _ hθ
            linarith
        _ = s.threshold := mul_one _
        _ ≤ s.max_threshold := h2
  · split
    · constructor
      · apply le_min hminmax
        calc s.min_threshold ≤ s.threshold := h1
          _ = s.threshold * 1 := (mul_one _).symm
          _ ≤ s.threshold * (1 + s.learning_rate * (|pnl| / max |entry| (1 / 1000000))) := by
            apply mul_le_mul_of_nonneg_left _ hθ
            linarith
      · exact min_le_left _ _
    · exact ⟨h1, h2⟩

/-- C3 (amended): provided the threshold starts inside
`[min_threshold, max_threshold]` (which the constructor does not enforce),
every sequence of realized pnl values fed through `on_trade_close` keeps
`min_threshold ≤ threshold ≤ max_threshold`. -/
theorem threshold_bounds_preserved (s : AdaptiveState) (trades : List (ℚ × ℚ))
    (hv : s.validParams) (h1 : s.min_threshold ≤ s.threshold)
    (h2 : s.threshold ≤ s.max_threshold) :
    s.min_threshold ≤ (applyTrades s trades).threshold ∧
      (applyTrades s trades).threshold ≤ s.max_threshold := by
  induction trades generalizing s with
  | nil => exact ⟨h1, h2⟩
  | cons t rest ih =>
    obtain ⟨hb1, hb2⟩ := on_trade_close_bounds s t.1 t.2 hv h1 h2
    obtain ⟨hf1, hf2, hf3⟩ := on_trade_close_fields s t.1 t.2
    have hv2 : (on_trade_close s t.1 t.2).validParams := by
      unfold AdaptiveState.validParams at hv ⊢
      rw [hf1, hf2, hf3]
      exact hv
    have := ih (on_trade_close s t.1 t.2) hv2 (hf1 ▸ hb1) (hf2 ▸ hb2)
    rw [hf1, hf2] at this
    exact this

/-- C3 counterexample: the constructor accepts an initial threshold far above
`max_threshold` (`initial_threshold = 100` with the default bounds
`[1/2000, 1/100]` and `learning_rate = 1/4`); after a winning adaptation on
a trade with `pnl = 1`, `entry = 100` the threshold is `399/4`, still far
above `max_threshold` — the invariant does not hold after that step. -/
theorem threshold_bounds_cx :
    (⟨100, 1/4, 1/2000, 1/100, []⟩ : AdaptiveState).validParams ∧
    (on_trade_close ⟨100, 1/4, 1/2000, 1/100, []⟩ 1 100).threshold = 399 / 4 ∧
    ¬ (on_trade_close ⟨100, 1/4, 1/2000, 1/100, []⟩ 1 100).threshold ≤
      (⟨100, 1/4, 1/2000, 1/100, []⟩ : AdaptiveState).max_threshold := by
  refine ⟨?_, ?_, ?_⟩
  · unfold AdaptiveState.validParams
    norm_num
  · norm_num [on_trade_close]
  · norm_num [on_trade_close]

/-- C9 (amended): for every positive `batch_size` and non-empty replay
buffer, `train` performs one `train_step` for exactly the most recent
`min(batch_size, buffer length)` experiences, in their original
chronological order (the trained batch is literally the corresponding
suffix of the buffer, folded left-to-right). -/
theorem train_most_recent (lr : ℚ) (opt : OptimizerState)
    (buffer : List Experience) (bs : Int) (hne : buffer ≠ []) (hbs : 1 ≤ bs) :
    (RLtrain lr opt buffer bs).2.2 =
      buffer.drop (buffer.length - bs.toNat) ∧
    (RLtrain lr opt buffer bs).2.1 = min bs.toNat buffer.length ∧
    (RLtrain lr opt buffer bs).1 =
      (buffer.drop (buffer.length - bs.toNat)).foldl
        (fun o e => train_step lr o e.state e.reward) opt := by
  have hneg : -bs < 0 := by omega
  have htn : Int.toNat ((buffer.length : Int) + -bs) = buffer.length - bs.toNat := by
    omega
  have hbatch : pySliceFrom buffer (-bs) = buffer.drop (buffer.length - bs.toNat) := by
    unfold pySliceFrom
    rw [if_pos hneg, htn]
  unfold RLtrain
  rw [if_neg hne]
  refine ⟨by rw [hbatch], ?_, by rw [hbatch]⟩
  simp only [hbatch, List.length_drop]
  omega

/-- C9 counterexample: with a one-experience buffer and `batch_size = 0`,
the slice `replay_buffer[-0:]` is the whole buffer, so `train` performs one
update instead of the `min(0, 1) = 0` the claim requires. -/
theorem train_batch_zero_cx :
    (RLtrain (1/10) ⟨[0], 1/10, 19/20⟩ [⟨[1], 1⟩] 0).2.1 = 1 ∧
    min (Int.toNat 0) ([(⟨[1], 1⟩ : Experience)].length) = 0 := by
  constructor
  · norm_num [RLtrain, pySliceFrom]
  · simp

theorem setItem_of_getVal_none {α : Type} (m : List (String × α)) (k : String)
    (v : α) (h : getVal m k = none) : setItem m k v = m ++ [(k, v)] := by
  induction m with
  | nil => rfl
  | cons p rest ih =>
    by_cases hp : p.1 = k
    · simp [getVal, hp] at h
    · simp only [getVal, hp, if_false] at h
      simp [setItem, hp, ih h]

theorem buildHashes_aux (results : List NodeResult) (acc : List (String × String))
    (hnodup : (results.map NodeResult.node_id).Nodup)
    (hdisj : ∀ r ∈ results, getVal acc r.node_id = none) :
    results.foldl
      (fun acc r => match r.hash with
        | some h => setItem acc r.node_id h
        | none => acc) acc = acc ++ hashPairs results := by
  induction results generalizing acc with
  | nil => simp [hashPairs]
  | cons r rest ih =>
    have hnodup2 : (rest.map NodeResult.node_id).Nodup := (List.nodup_cons.mp hnodup).2
    have hrid : r.node_id ∉ rest.map NodeResult.node_id := (List.nodup_cons.mp hnodup).1
    cases hh : r.hash with
    | none =>
      simp only [List.foldl_cons, hh]
      rw [ih acc hnodup2 (fun r2 h2 => hdisj r2 (by simp [h2]))]
      simp [hashPairs, hh]
    | some hv =>
      simp only [List.foldl_cons, hh]
      rw [setItem_of_getVal_none acc r.node_id hv (hdisj r (by simp))]
      rw [ih _ hnodup2 ?_]
      · simp [hashPairs, hh]
      · intro r2 h2
        rw [getVal_append_of_none acc _ r2.node_id (hdisj r2 (by simp [h2]))]
        have hne : r.node_id ≠ r2.node_id := by
          intro hc
          exact hrid (hc ▸ List.mem_map_of_mem NodeResult.node_id h2)
        simp [getVal, hne]

theorem buildHashes_eq (results : List NodeResult)
    (hnodup : (results.map NodeResult.node_id).Nodup) :
    buildHashes results = hashPairs results := by
  unfold buildHashes
  rw [buildHashes_aux results [] hnodup (fun _ _ => rfl)]
  rfl

theorem hashPairs_map_snd (results : List NodeResult) :
    (hashPairs results).map Prod.snd = results.filterMap NodeResult.hash := by
  induction results with
  | nil => rfl
  | cons r rest ih =>
    cases hh : r.hash <;> simp [hashPairs, hh] <;>
      simpa [hashPairs] using ih

theorem hashPairs_map_fst (results : List NodeResult) :
    (hashPairs results).map Prod.fst =
      (results.filter (fun r => r.hash.isSome)).map NodeResult.node_id := by
  induction results with
  | nil => rfl
  | cons r rest ih =>
    cases hh : r.hash <;> simp [hashPairs, hh, List.filter_cons] <;>
      simpa [hashPairs] using ih

theorem mem_setItem {α : Type} (m : List (String × α)) (k : String) (v : α) :
    ∀ q ∈ setItem m k v, q ∈ m ∨ q = (k, v) := by
  induction m with
  | nil => simp [setItem]
  | cons p rest ih =>
    intro q hq
    by_cases hp : p.1 = k
    · simp only [setItem, hp, if_pos rfl] at hq
      rcases List.mem_cons.mp hq with h | h
      · exact Or.inr h
      · exact Or.inl (List.mem_cons_of_mem p h)
    · simp only [setItem, hp, if_false] at hq
      rcases List.mem_cons.mp hq with h | h
      · exact Or.inl (h ▸ List.mem_cons_self p rest)
      · rcases ih q h with h2 | h2
        · exact Or.inl (List.mem_cons_of_mem p h2)
        · exact Or.inr h2

theorem buildHashes_snd_const (results : List NodeResult) (c : String)
    (h : ∀ r ∈ results, r.hash = none ∨ r.hash = some c) :
    ∀ q ∈ buildHashes results, q.2 = c := by
  unfold buildHashes
  suffices haux : ∀ acc, (∀ q ∈ acc, q.2 = c) →
      ∀ q ∈ results.foldl
        (fun acc r => match r.hash with
          | some h => setItem acc r.node_id h
          | none => acc) acc, q.2 = c from haux [] (by simp)
  induction results with
  | nil => intro acc hacc; simpa using hacc
  | cons r rest ih =>
    intro acc hacc
    have hrest : ∀ r2 ∈ rest, r2.hash = none ∨ r2.hash = some c :=
      fun r2 h2 => h r2 (by simp [h2])
    cases hh : r.hash with
    | none =>
      simp only [List.foldl_cons, hh]
      exact ih hrest acc hacc
    | some hv =>
      have hc : hv = c := by
        rcases h r (by simp) with h2 | h2
        · rw [hh] at h2; cases h2
        · rw [hh] at h2; exact Option.some.inj h2
      simp only [List.foldl_cons, hh]
      refine ih hrest _ ?_
      intro q hq
      rcases mem_setItem acc r.node_id hv q hq with h2 | h2
      · exact hacc q h2
      · rw [h2, hc]

theorem dedup_length_le_one_of_const (l : List String) (c : String)
    (h : ∀ x ∈ l, x = c) : l.dedup.length ≤ 1 := by
  induction l with
  | nil => simp
  | cons a rest ih =>
    by_cases hmem : a ∈ rest
    · rw [List.dedup_cons_of_mem hmem]
      exact ih (fun x hx => h x (by simp [hx]))
    · rw [List.dedup_cons_of_not_mem hmem]
      cases rest with
      | nil => simp
      | cons b rest2 =>
        exfalso
        have hb : b = c := h b (by simp)
        have ha : a = c := h a (by simp)
        exact hmem (by rw [ha, ← hb]; simp)

/-- C4 (amended, for batches with distinct node ids): `consolidate_results`
reports `consistent` iff there is at most one distinct non-null hash and no
failed node; `failed_nodes` lists exactly the ids of non-success nodes;
whenever at least *two* distinct non-null hashes exist (hash disagreement —
not merely a failed node), `mismatched_nodes` lists every node id carrying a
hash; N success nodes with an identical payload are consistent with no
mismatches; and an erroring node makes the batch inconsistent with that
node's id among `failed_nodes`. -/
theorem consolidate_results_spec (results : List NodeResult)
    (hnodup : (results.map NodeResult.node_id).Nodup) :
    ((consolidate_results results).consistent = true ↔
      (distinctHashes results).length ≤ 1 ∧
        (consolidate_results results).failed_nodes = []) ∧
    ((consolidate_results results).failed_nodes =
      (results.filter (fun r => r.status ≠ "success")).map NodeResult.node_id) ∧
    (2 ≤ (distinctHashes results).length →
      (consolidate_results results).mismatched_nodes =
        (results.filter (fun r => r.hash.isSome)).map NodeResult.node_id) ∧
    (∀ hp (ids : List String) (payload : String),
      (consolidate_results (ids.map (fun i => mkSuccess hp i payload))).consistent = true ∧
      (consolidate_results (ids.map (fun i => mkSuccess hp i payload))).mismatched_nodes = []) ∧
    (∀ r ∈ results, r.status = "error" →
      (consolidate_results results).consistent = false ∧
      r.node_id ∈ (consolidate_results results).failed_nodes) := by
  have hhashes : buildHashes results = hashPairs results := buildHashes_eq results hnodup
  have hsnd : (buildHashes results).map Prod.snd = results.filterMap NodeResult.hash := by
    rw [hhashes]; exact hashPairs_map_snd results
  refine ⟨?_, rfl, ?_, ?_, ?_⟩
  · show (decide _ && _) = true ↔ _
    rw [Bool.and_eq_true, decide_eq_true_eq, List.isEmpty_iff]
    rw [hsnd]
    exact Iff.rfl
  · intro h2
    show (if _ ≤ 1 then _ else _) = _
    rw [hsnd]
    rw [if_neg (by unfold distinctHashes at h2; omega)]
    rw [hhashes]
    exact hashPairs_map_fst results
  · intro hp ids payload
    have hall : ∀ r ∈ ids.map (fun i => mkSuccess hp i payload),
        r.hash = none ∨ r.hash = some (hp payload) := by
      intro r hr
      obtain ⟨i, _, hi⟩ := List.mem_map.mp hr
      rw [← hi]
      exact Or.inr rfl
    have hfail : (ids.map (fun i => mkSuccess hp i payload)).filter
        (fun r => r.status ≠ "success") = [] := by
      rw [List.filter_eq_nil_iff]
      intro r hr
      obtain ⟨i, _, hi⟩ := List.mem_map.mp hr
      rw [← hi]
      simp [mkSuccess]
    have huniq : (((buildHashes (ids.map (fun i => mkSuccess hp i payload))).map
        Prod.snd).dedup).length ≤ 1 := by
      apply dedup_length_le_one_of_const _ (hp payload)
      intro x hx
      obtain ⟨q, hq, hqx⟩ := List.mem_map.mp hx
      rw [← hqx]
      exact buildHashes_snd_const _ (hp payload) hall q hq
    constructor
    · show (decide _ && _) = true
      rw [Bool.and_eq_true, decide_eq_true_eq]
      exact ⟨huniq, by simp [hfail, mkSuccess]⟩
    · show (if _ ≤ 1 then _ else _) = _
      rw [if_pos huniq]
  · intro r hr hstatus
    have hmem : r.node_id ∈ (consolidate_results results).failed_nodes := by
      show r.node_id ∈ (results.filter (fun r => r.status ≠ "success")).map NodeResult.node_id
      apply List.mem_map_of_mem
      apply List.mem_filter.mpr
      exact ⟨hr, by rw [hstatus]; decide⟩
    refine ⟨?_, hmem⟩
    show (decide _ && _) = false
    have : ¬ (consolidate_results results).failed_nodes = [] := by
      intro hc
      rw [hc] at hmem
      simp at hmem
    cases hem : (results.filter (fun r => r.status ≠ "success")).map NodeResult.node_id with
    | nil => exact absurd hem this
    | cons a l => simp

/-- C4 counterexample: one successful node (carrying a hash) plus one failed
node make the batch inconsistent, yet `mismatched_nodes` is empty — the
hash-carrying node `a` is not listed, contradicting the claim that on any
inconsistent batch every hash-carrying node id is listed. -/
theorem mismatched_on_failures_cx :
    (consolidate_results [⟨"a", "success", "p", some "h"⟩,
      ⟨"b", "error", "boom", none⟩]).consistent = false ∧
    (consolidate_results [⟨"a", "success", "p", some "h"⟩,
      ⟨"b", "error", "boom", none⟩]).mismatched_nodes = [] ∧
    ([⟨"a", "success", "p", some "h"⟩, (⟨"b", "error", "boom", none⟩ : NodeResult)].filter
      (fun r => r.hash.isSome)).map NodeResult.node_id = ["a"] := by
  decide

/-! ### Verifier/writer lemmas -/

theorem getVal_eq_none_iff {α : Type} (m : List (String × α)) (k : String) :
    getVal m k = none ↔ k ∉ m.map Prod.fst := by
  induction m with
  | nil => simp [getVal]
  | cons p rest ih =>
    by_cases hp : p.1 = k
    · simp [getVal, hp]
    · simp [getVal, hp, ih, Ne.symm hp]

theorem verifyEntry_eq_valid (mac : String → String → String) (key : String)
    (entry : Entry) (h : verifyEntry mac key entry = .valid) :
    getVal entry "hmac" = some (.str (mac key (canonMsg entry))) := by
  rcases hg : getVal entry "hmac" with _ | sig
  · simp [verifyEntry, hg] at h
  · cases sig with
    | str s =>
      simp only [verifyEntry, hg] at h
      by_cases htr : (Json.str s).truthy = true
      · rw [if_neg (not_not_intro htr)] at h
        by_cases hd : s = mac key (canonMsg entry)
        · rw [hd]
        · rw [if_neg hd] at h
          exact absurd h (by decide)
      · rw [if_pos htr] at h
        exact absurd h (by decide)
    | null => simp [verifyEntry, hg, Json.truthy] at h
    | bool b => cases b <;> simp [verifyEntry, hg, Json.truthy] at h
    | num n =>
      by_cases hn : n = 0 <;> simp [verifyEntry, hg, Json.truthy, hn] at h
    | arr xs =>
      cases xs <;> simp [verifyEntry, hg, Json.truthy, JsonList.isEmpty] at h
    | obj fs =>
      cases fs <;> simp [verifyEntry, hg, Json.truthy, JsonFields.isEmpty] at h

theorem verifyEntry_valid_of (mac : String → String → String) (key : String)
    (entry : Entry) (hne : mac key (canonMsg entry) ≠ "")
    (h : getVal entry "hmac" = some (.str (mac key (canonMsg entry)))) :
    verifyEntry mac key entry = .valid := by
  have htr : (Json.str (mac key (canonMsg entry))).truthy = true := by
    simp [Json.truthy, hne]
  simp only [verifyEntry, h]
  rw [if_neg (not_not_intro htr)]
  simp

theorem noHmac_setItem (e : Entry) (k : String) (v : Json)
    (h : "hmac" ∉ e.map Prod.fst) (hk : k ≠ "hmac") :
    "hmac" ∉ (setItem e k v).map Prod.fst := by
  intro hmem
  obtain ⟨p, hp, hp1⟩ := List.mem_map.mp hmem
  rcases mem_setItem e k v p hp with h2 | h2
  · exact h (hp1 ▸ List.mem_map_of_mem Prod.fst h2)
  · rw [h2] at hp1
    exact hk hp1

theorem noHmac_append_single (e : Entry) (k : String) (v : Json)
    (h : "hmac" ∉ e.map Prod.fst) (hk : k ≠ "hmac") :
    "hmac" ∉ (e ++ [(k, v)]).map Prod.fst := by
  simp only [List.map_append, List.mem_append, List.map_cons, List.map_nil,
    List.mem_singleton]
  rintro (h2 | h2)
  · exact h h2
  · exact hk h2.symm

theorem noHmac_setdefaultJ (e : Entry) (k : String) (v : Json)
    (h : "hmac" ∉ e.map Prod.fst) (hk : k ≠ "hmac") :
    "hmac" ∉ (setdefaultJ e k v).map Prod.fst := by
  unfold setdefaultJ
  split
  · exact h
  · exact noHmac_append_single e k v h hk

/-- The entry built by `append_signed_audit` before signing carries no
`hmac` key when the payload carries none. -/
theorem buildUnsigned_noHmac (payload : Entry) (sid : Option String)
    (ts : String) (info : Entry) (e3 : Entry)
    (hpay : "hmac" ∉ payload.map Prod.fst)
    (hok : buildUnsigned payload sid ts info = .ok e3) :
    "hmac" ∉ e3.map Prod.fst := by
  have h1 : "hmac" ∉ (match sid with
      | some s => if s ≠ "" then setItem payload "session_id" (.str s) else payload
      | none => payload).map Prod.fst := by
    cases sid with
    | none => exact hpay
    | some s =>
      by_cases hs : s ≠ ""
      · simpa [hs] using noHmac_setItem payload "session_id" (.str s) hpay (by decide)
      · simpa [hs] using hpay
  unfold buildUnsigned at hok
  generalize hE : (match sid with
      | some s => if s ≠ "" then setItem payload "session_id" (.str s) else payload
      | none => payload) = e1 at h1 hok
  have h2 : "hmac" ∉ (setdefaultJ e1 "ts" (.str ts)).map Prod.fst :=
    noHmac_setdefaultJ e1 "ts" (.str ts) h1 (by decide)
  cases hsess : getVal (setdefaultJ e1 "ts" (Json.str ts)) "session" with
  | none =>
    simp only [hsess, Except.ok.injEq] at hok
    exact hok ▸ noHmac_append_single _ "session" _ h2 (by decide)
  | some sig =>
    cases sig with
    | obj sess =>
      simp only [hsess, Except.ok.injEq] at hok
      exact hok ▸ noHmac_setItem _ "session" _ h2 (by decide)
    | null =>
      simp only [hsess] at hok
      split at hok
      · simp only [Except.ok.injEq] at hok
        exact hok ▸ h2
      · cases hok
    | bool b =>
      simp only [hsess] at hok
      split at hok
      · simp only [Except.ok.injEq] at hok
        exact hok ▸ h2
      · cases hok
    | num n =>
      simp only [hsess] at hok
      split at hok
      · simp only [Except.ok.injEq] at hok
        exact hok ▸ h2
      · cases hok
    | str s =>
      simp only [hsess] at hok
      split at hok
      · simp only [Except.ok.injEq] at hok
        exact hok ▸ h2
      · cases hok
    | arr xs =>
      simp only [hsess] at hok
      split at hok
      · simp only [Except.ok.injEq] at hok
        exact hok ▸ h2
      · cases hok

theorem normalizeEntry_signed (e3 : Entry) (v : Json)
    (h : "hmac" ∉ e3.map Prod.fst) :
    normalizeEntry (e3 ++ [("hmac", v)]) = e3 := by
  unfold normalizeEntry
  rw [List.filter_append]
  have h1 : e3.filter (fun p => p.1 ≠ "hmac") = e3 := by
    rw [List.filter_eq_self]
    intro p hp
    simp only [ne_eq, decide_eq_true_eq]
    intro hc
    exact h (hc ▸ List.mem_map_of_mem Prod.fst hp)
  rw [h1]
  simp

/-- C2 (amended): for any MAC model whose digests are non-empty strings,
an entry verifies as valid iff its `hmac` field is exactly the MAC of the
canonical key-sorted serialization of the entry minus `hmac` (equivalently,
a one-entry stream verifies `(1, 1, [])`); an entry produced by the signed
writer from a payload *not already carrying an `hmac` key* verifies as
valid; and — under the idealization that the MAC is injective, i.e.
collision-free — changing an entry in any way that changes the canonical
serialization of its `hmac`-stripped part, while keeping the `hmac` field,
makes verification fail. -/
theorem verify_valid_iff_hmac_matches (mac : String → String → String) (key : String) :
    (∀ entry : Entry, mac key (canonMsg entry) ≠ "" →
      ((verifyEntry mac key entry = .valid ↔
        getVal entry "hmac" = some (.str (mac key (canonMsg entry)))) ∧
      (verify_audit_stream mac [entry] key = .ok (1, 1, []) ↔
        verifyEntry mac key entry = .valid))) ∧
    (∀ (payload : Entry) (sid : Option String) (ts : String) (info : Entry)
        (entry : Entry), "hmac" ∉ payload.map Prod.fst →
      append_signed_audit mac (some key) payload sid ts info = .ok entry →
      mac key (canonMsg entry) ≠ "" →
      verifyEntry mac key entry = .valid) ∧
    (∀ e e2 : Entry, Function.Injective (mac key) →
      verifyEntry mac key e = .valid →
      getVal e2 "hmac" = getVal e "hmac" →
      canonMsg e2 ≠ canonMsg e →
      verifyEntry mac key e2 ≠ .valid) := by
  refine ⟨?_, ?_, ?_⟩
  · intro entry hne
    constructor
    · exact ⟨verifyEntry_eq_valid mac key entry,
        verifyEntry_valid_of mac key entry hne⟩
    · unfold verify_audit_stream streamGo
      cases hv : verifyEntry mac key entry <;> simp [hv, streamGo]
  · intro payload sid ts info entry hpay hok hne
    unfold append_signed_audit at hok
    split at hok
    · cases hok
    · rename_i e3 hb
      simp only [Except.ok.injEq] at hok
      have hno3 : "hmac" ∉ e3.map Prod.fst :=
        buildUnsigned_noHmac payload sid ts info e3 hpay hb
      have hnone : getVal e3 "hmac" = none := (getVal_eq_none_iff e3 "hmac").mpr hno3
      have hset : entry = e3 ++ [("hmac",
          Json.str (mac key (canonicalJson (.obj (fieldsOf e3)))))] := by
        rw [← hok]
        exact setItem_of_getVal_none e3 "hmac" _ hnone
      have hnorm : normalizeEntry entry = e3 := by
        rw [hset]
        exact normalizeEntry_signed e3 _ hno3
      have hcanon : canonMsg entry = canonicalJson (.obj (fieldsOf e3)) := by
        unfold canonMsg
        rw [hnorm]
      rw [hset] at hcanon
      apply verifyEntry_valid_of mac key entry hne
      rw [hset, getVal_append_of_none e3 _ "hmac" hnone]
      simp [getVal, hcanon]
  · intro e e2 hinj hvalid hsame hdiff
    intro hvalid2
    have h1 := verifyEntry_eq_valid mac key e hvalid
    have h2 := verifyEntry_eq_valid mac key e2 hvalid2
    rw [hsame, h1] at h2
    have : mac key (canonMsg e) = mac key (canonMsg e2) := by
      have := Option.some.inj h2
      exact (Json.str.inj this)
    exact hdiff (hinj this.symm)

/-- C6 (amended): the audit-log verifier of `scripts/recover_state.py`
returns `(0 total, 0 verified, 0 failed, no failures)` on a missing file,
while `hmac_utils.verify_audit_file` — the function the claim points at —
propagates `FileNotFoundError` instead. -/
theorem missing_audit_file_behavior (mac : String → String → String)
    (parse : String → Option Entry) (key : String) :
    verify_audit_log mac key parse none = (0, 0, 0, []) ∧
    verify_audit_file mac parse none key = Except.error "FileNotFoundError" :=
  ⟨rfl, rfl⟩

/-- C6 counterexample: verifying a missing audit log file through
`verify_audit_file` yields `FileNotFoundError`, not the `(0, 0, 0)`
triple. -/
theorem verify_audit_file_missing_cx :
    verify_audit_file toyMac (fun _ => none) none "k" =
      Except.error "FileNotFoundError" ∧
    verify_audit_file toyMac (fun _ => none) none "k" ≠
      Except.ok (0, 0, []) := by
  exact ⟨rfl, fun h => Except.noConfusion h⟩

/-- C2 counterexample: a payload that already carries an `hmac` field is
signed *including* that stale field (the signature is computed before the
field is overwritten), so the entry the writer appends does not verify:
verification reports `HMAC_MISMATCH`. -/
theorem writer_preseeded_hmac_cx :
    (append_signed_audit toyMac (some "k") [("hmac", Json.str "x")] none "T"
      [("user", Json.str "u")]).isOk = true ∧
    verifyEntry toyMac "k"
      ((append_signed_audit toyMac (some "k") [("hmac", Json.str "x")] none "T"
        [("user", Json.str "u")]).toOption.getD []) = Verdict.hmacMismatch := by
  exact ⟨rfl, by decide⟩

/-! ## Witnesses: each hypothesis-bearing claim theorem applied at a
concrete input -/

/-- Witness for the equity-accounting identity: the empty run with capital
1000. -/
theorem run_pnl_sum_eq_equity_change_witness :
    ∃ es ss, getVal (emptyRunResult sqStub 1000).metrics "ending_equity" = some es ∧
      getVal (emptyRunResult sqStub 1000).metrics "starting_equity" = some ss ∧
      ss = (1000 : ℚ) ∧ sumPnl (emptyRunResult sqStub 1000).trades = es - ss :=
  run_pnl_sum_eq_equity_change ⟨1000, 1/100, 0⟩ sqStub [] (fun _ => 0)
    (emptyRunResult sqStub 1000) rfl

/-- Witness for the empty-run behaviour at capital 1000. -/
theorem run_empty_prices_witness :
    ∃ res, Backtester.run ⟨1000, 1/100, 0⟩ sqStub [] (fun _ => 0) = Except.ok res ∧
      res.trades = [] ∧ res.equity_curve = [] ∧
      getVal res.metrics "starting_equity" = some 1000 ∧
      getVal res.metrics "ending_equity" = some 1000 ∧
      getVal res.metrics "net_return" = some 0 :=
  run_empty_prices ⟨1000, 1/100, 0⟩ sqStub (fun _ => 0) (by norm_num)

/-- Witness for the failure behaviour: a bar without `close` aborts the run
with the missing-key error even though the strategy would also return the
out-of-range signal 5. -/
theorem run_error_iff_witness :
    Backtester.run ⟨1000, 1/100, 0⟩ sqStub [[("open", (1 : ℚ))]] (fun _ => 5) =
      Except.error missingKeyMsg :=
  (run_error_iff ⟨1000, 1/100, 0⟩ sqStub [[("open", (1 : ℚ))]] (fun _ => 5)).2
    [] [("open", 1)] [] rfl (by simp) (by decide)

/-- Witness for `summarize`: a pre-seeded `win_rate` of 7 survives the
call (the computed value would have been 0). -/
theorem summarize_idempotent_witness :
    getVal (summarize sqStub ⟨[], [], [("win_rate", 7)]⟩).metrics "win_rate" = some 7 :=
  (summarize_idempotent_and_preserving sqStub ⟨[], [], [("win_rate", 7)]⟩).2
    "win_rate" 7 rfl

/-- Witness for the returns-based sharpe metric on the curve `[2, 3]`. -/
theorem sharpe_is_returns_based_witness :
    getVal (summarize sqStub ⟨[], [2, 3], []⟩).metrics "sharpe_ratio" =
      some (sharpeOfRets sqStub (pyReturns [2, 3])) :=
  sharpe_is_returns_based sqStub ⟨[], [2, 3], []⟩ rfl
    (by norm_num [pyReturns, List.cons_ne_nil])

/-- Witness for the threshold invariant: an in-bounds start (1/250) with a
winning trade stays within `[1/2000, 1/100]`. -/
theorem threshold_bounds_preserved_witness :
    (1/2000 : ℚ) ≤ (applyTrades ⟨1/250, 1/4, 1/2000, 1/100, []⟩ [(1, 100)]).threshold ∧
    (applyTrades ⟨1/250, 1/4, 1/2000, 1/100, []⟩ [(1, 100)]).threshold ≤ (1/100 : ℚ) :=
  threshold_bounds_preserved ⟨1/250, 1/4, 1/2000, 1/100, []⟩ [(1, 100)]
    (by unfold AdaptiveState.validParams; norm_num) (by norm_num) (by norm_num)

/-- Witness for the replay training batch: a two-experience buffer with
`batch_size = 1` trains exactly the most recent experience. -/
theorem train_most_recent_witness :
    (RLtrain (1/10) ⟨[0], 1/10, 19/20⟩ [⟨[1], 1⟩, ⟨[2], 2⟩] 1).2.2 =
      [⟨[1], 1⟩, (⟨[2], 2⟩ : Experience)].drop
        ([⟨[1], 1⟩, (⟨[2], 2⟩ : Experience)].length - (1 : Int).toNat) ∧
    (RLtrain (1/10) ⟨[0], 1/10, 19/20⟩ [⟨[1], 1⟩, ⟨[2], 2⟩] 1).2.1 =
      min (1 : Int).toNat [⟨[1], 1⟩, (⟨[2], 2⟩ : Experience)].length ∧
    (RLtrain (1/10) ⟨[0], 1/10, 19/20⟩ [⟨[1], 1⟩, ⟨[2], 2⟩] 1).1 =
      ([⟨[1], 1⟩, (⟨[2], 2⟩ : Experience)].drop
        ([⟨[1], 1⟩, (⟨[2], 2⟩ : Experience)].length - (1 : Int).toNat)).foldl
        (fun o e => train_step (1/10) o e.state e.reward) ⟨[0], 1/10, 19/20⟩ :=
  train_most_recent (1/10) ⟨[0], 1/10, 19/20⟩ [⟨[1], 1⟩, ⟨[2], 2⟩] 1
    (by simp) (by norm_num)

/-- Witness for `consolidate_results`: a one-node batch with a distinct
node id. -/
theorem consolidate_results_spec_witness :
    (consolidate_results [⟨"a", "success", "p", some "h"⟩]).failed_nodes =
      ([(⟨"a", "success", "p", some "h"⟩ : NodeResult)].filter
        (fun r => r.status ≠ "success")).map NodeResult.node_id :=
  (consolidate_results_spec [⟨"a", "success", "p", some "h"⟩] (by decide)).2.1

/-- Witness for the HMAC verifier: a correctly signed one-entry stream
verifies as `(1, 1, [])` under the `toyMac` digest model. -/
theorem verify_valid_iff_hmac_matches_witness :
    verify_audit_stream toyMac
      [[("a", Json.num 1), ("hmac", Json.str "sig:k:\x7b\"a\": 1\x7d")]] "k" =
      Except.ok (1, 1, []) :=
  ((verify_valid_iff_hmac_matches toyMac "k").1
    [("a", Json.num 1), ("hmac", Json.str "sig:k:\x7b\"a\": 1\x7d")] (by decide)).2.mpr
    (((verify_valid_iff_hmac_matches toyMac "k").1
      [("a", Json.num 1), ("hmac", Json.str "sig:k:\x7b\"a\": 1\x7d")] (by decide)).1.mpr
      (by decide))

end QaiTrader
